import Mathlib

/-!
Shallow embedding of the time-series analysis pipeline of
`rust-netcdf-viewer` (`src/utils/analysis.ts` and the `processedData`
orchestrator of `src/components/AnalysisPanel.tsx`), with theorems settling
the specification claims.

Modelling conventions:
* JavaScript `number` values of the series are modelled as `ℚ` (the
  algorithms are plain field arithmetic; the spec's claims are about the
  algorithms, not float rounding), timestamps as `Int` (milliseconds).
* A function that can `throw` becomes `Except String _`.
* JavaScript `Array.prototype.sort` with a correct comparator is modelled by
  `List.insertionSort` (any comparison sort; the claims never depend on the
  particular sorting algorithm).
* `Math.sqrt` and the timezone-dependent `getPeriodStart` (which goes
  through the host-local `Date` calendar) are taken as explicit function
  parameters `sqrtFn : ℚ → ℚ` and `ps : Int → Int`; every theorem holds for
  all such functions (with `sqrtFn 0 = 0`, which `Math.sqrt` satisfies).
-/

/-- `DataPoint` from `analysis.ts`: a timestamp (Unix ms) and a value. -/
structure DataPoint where
  timestamp : Int
  value : ℚ
deriving DecidableEq, Repr

/-- `TrendResult` from `analysis.ts`. -/
structure TrendResult where
  slope : ℚ
  intercept : ℚ
  r2 : ℚ
deriving DecidableEq, Repr

/-- `AggregationFunction` from `analysis.ts`. -/
inductive AggregationFunction where
  | mean | sum | min | max | count | median
deriving DecidableEq, Repr

/-- `calculateSimpleMovingAverage` from `analysis.ts`.
Throws when `windowSize <= 0 || windowSize > data.length`; otherwise for
each index `i` it pushes the mean of `data.slice(0, i+1)` (partial window,
`i < windowSize - 1`) or of `data.slice(i - windowSize + 1, i + 1)` (full
window).  The source's result type is `(number | null)[]` although it only
ever pushes numbers; we keep `Option ℚ` for the entries. -/
def calculateSimpleMovingAverage (data : List ℚ) (windowSize : Int) :
    Except String (List (Option ℚ)) :=
  if windowSize ≤ 0 ∨ (data.length : Int) < windowSize then
    Except.error "Window size must be positive and <= data length"
  else
    Except.ok ((List.range data.length).map (fun (i : ℕ) =>
      if (i : Int) < windowSize - 1 then
        let partWin := data.take (i + 1)
        some (partWin.sum / (partWin.length : ℚ))
      else
        let win := (data.take (i + 1)).drop (i + 1 - windowSize.toNat)
        some (win.sum / (windowSize : ℚ))))

/-- The loop of `calculateExponentialMovingAverage`: given the previous EMA
value, each step pushes `alpha * value + (1 - alpha) * prev`. -/
def emaFrom (alpha : ℚ) (prev : ℚ) : List ℚ → List ℚ
  | [] => []
  | v :: rest =>
      let e := alpha * v + (1 - alpha) * prev
      e :: emaFrom alpha e rest

/-- `calculateExponentialMovingAverage` from `analysis.ts`.
Throws when `alpha <= 0 || alpha > 1`; an empty input yields `[]`; otherwise
the first output is the first input and the rest follow the EMA recurrence. -/
def calculateExponentialMovingAverage (data : List ℚ) (alpha : ℚ) :
    Except String (List ℚ) :=
  if alpha ≤ 0 ∨ 1 < alpha then
    Except.error "Alpha must be in range (0, 1]"
  else
    match data with
    | [] => Except.ok []
    | v :: rest => Except.ok (v :: emaFrom alpha v rest)

/-- `calculateLinearTrend` from `analysis.ts`.
Throws when the lengths differ or are zero.  The accumulation loops over
`i < n` reading `x[i]`, `y[i]` are rendered as sums over `x.zip y` (the
guard makes the lengths equal, so the `undefined` continues never fire). -/
def calculateLinearTrend (x y : List ℚ) : Except String TrendResult :=
  if x.length ≠ y.length ∨ x.length = 0 then
    Except.error "X and Y arrays must have the same non-zero length"
  else
    let n : ℚ := (x.length : ℚ)
    let xMean := x.sum / n
    let yMean := y.sum / n
    let numerator := ((x.zip y).map (fun p => (p.1 - xMean) * (p.2 - yMean))).sum
    let denominator := (x.map (fun v => (v - xMean) ^ 2)).sum
    let slope := if denominator = 0 then 0 else numerator / denominator
    let intercept := yMean - slope * xMean
    let ssTotal := (y.map (fun v => (v - yMean) ^ 2)).sum
    let ssResidual :=
      ((x.zip y).map (fun p => (p.2 - (slope * p.1 + intercept)) ^ 2)).sum
    let r2 := if ssTotal = 0 then 0 else 1 - ssResidual / ssTotal
    Except.ok ⟨slope, intercept, r2⟩

/-- The record returned by `calculateIQR`. -/
structure IQRResult where
  q1 : ℚ
  q3 : ℚ
  iqr : ℚ
  lowerBound : ℚ
  upperBound : ℚ
  outlierIndices : List Nat
deriving DecidableEq, Repr

/-- `calculateIQR` from `analysis.ts`.  `Math.floor(n * 0.25)` and
`Math.floor(n * 0.75)` are exact in binary floating point for every
realistic length `n` (0.25 and 0.75 are powers-of-two multiples), so the
quartile indices are the natural-number divisions `n / 4` and `3 * n / 4`;
the `?? 0` fallbacks become `getD _ 0`. -/
def calculateIQR (data : List ℚ) : IQRResult :=
  if data.length = 0 then ⟨0, 0, 0, 0, 0, []⟩
  else
    let sorted := List.insertionSort (· ≤ ·) data
    let n := sorted.length
    let q1 := sorted.getD (n / 4) 0
    let q3 := sorted.getD (3 * n / 4) 0
    let iqr := q3 - q1
    let lowerBound := q1 - 3 / 2 * iqr
    let upperBound := q3 + 3 / 2 * iqr
    let outlierIndices :=
      (data.enum.filter (fun p => p.2 < lowerBound || upperBound < p.2)).map (·.1)
    ⟨q1, q3, iqr, lowerBound, upperBound, outlierIndices⟩

/-- One comparison `Math.abs((value - mean) / stdDev) > threshold` of
`detectAnomalies`, including its IEEE behaviour when `stdDev = 0`:
`0 / 0` is `NaN` (so the `>` comparison is false exactly when
`value = mean`) and `x / 0` for `x ≠ 0` is `±Infinity`, whose absolute
value exceeds every finite threshold. -/
def zScoreExceeds (mean stdDev threshold v : ℚ) : Bool :=
  if stdDev = 0 then v ≠ mean
  else |(v - mean) / stdDev| > threshold

/-- `detectAnomalies` from `analysis.ts`, parametric in the square-root
function: `Math.sqrt` is not rational-valued, and the theorems below only
ever use `sqrtFn 0 = 0`, which `Math.sqrt` satisfies. -/
def detectAnomalies (sqrtFn : ℚ → ℚ) (data : List ℚ) (threshold : ℚ) : List Nat :=
  if data.length = 0 ∨ threshold ≤ 0 then []
  else
    let mean := data.sum / (data.length : ℚ)
    let variance := (data.map (fun v => (v - mean) ^ 2)).sum / (data.length : ℚ)
    let stdDev := sqrtFn variance
    (data.enum.filter (fun p => zScoreExceeds mean stdDev threshold p.2)).map (·.1)

/-- `filterByValueRange` from `analysis.ts` (`none` = bound not supplied;
a point is dropped when a present lower bound exceeds its value or a
present upper bound is below it). -/
def filterByValueRange (data : List DataPoint) (vmin vmax : Option ℚ) :
    List DataPoint :=
  data.filter (fun point =>
    !(vmin.any (fun m => point.value < m)) &&
    !(vmax.any (fun m => m < point.value)))

/-- `filterByDateRange` from `analysis.ts`; the optional `Date` arguments
are already their `getTime()` millisecond values. -/
def filterByDateRange (data : List DataPoint) (startTime endTime : Option Int) :
    List DataPoint :=
  data.filter (fun point =>
    !(startTime.any (fun t => point.timestamp < t)) &&
    !(endTime.any (fun t => t < point.timestamp)))

/-- `applyAggregationFunction` from `analysis.ts`.  The source returns `NaN`
on an empty list; `aggregateByTimePeriod` only ever applies it to nonempty
groups, so `0` stands in for that unreachable `NaN`.  `Math.min(...values)`
and `Math.max(...values)` on a nonempty spread are folds of `min`/`max`. -/
def applyAggregationFunction (values : List ℚ) (func : AggregationFunction) : ℚ :=
  if values.length = 0 then 0
  else
    match func with
    | .mean => values.sum / (values.length : ℚ)
    | .sum => values.sum
    | .min => match values with | [] => 0 | v :: rest => rest.foldl Min.min v
    | .max => match values with | [] => 0 | v :: rest => rest.foldl Max.max v
    | .count => (values.length : ℚ)
    | .median =>
        let sorted := List.insertionSort (· ≤ ·) values
        let mid := sorted.length / 2
        if sorted.length % 2 = 0 then
          (sorted.getD (mid - 1) 0 + sorted.getD mid 0) / 2
        else sorted.getD mid 0

/-- One step of the insertion-ordered `Map` built by `aggregateByTimePeriod`:
push `v` onto the group of key `k`, creating the group at the end on first
sight of `k` (JavaScript `Map` iterates in insertion order). -/
def insertGroup : List (Int × List ℚ) → Int → ℚ → List (Int × List ℚ)
  | [], k, v => [(k, [v])]
  | (k', vs) :: rest, k, v =>
      if k' = k then (k', vs ++ [v]) :: rest
      else (k', vs) :: insertGroup rest k v

/-- The grouping pass of `aggregateByTimePeriod`. -/
def groupByPeriod (ps : Int → Int) (data : List DataPoint) :
    List (Int × List ℚ) :=
  data.foldl (fun gs p => insertGroup gs (ps p.timestamp) p.value) []

/-- The comparator `(a, b) => a.timestamp - b.timestamp` of the final sort
in `aggregateByTimePeriod`, as an ordering relation. -/
def byTimestamp (a b : DataPoint) : Prop :=
  a.timestamp ≤ b.timestamp

instance : DecidableRel byTimestamp :=
  fun a b => inferInstanceAs (Decidable (a.timestamp ≤ b.timestamp))

instance : IsTotal DataPoint byTimestamp :=
  ⟨fun a b => le_total a.timestamp b.timestamp⟩

instance : IsTrans DataPoint byTimestamp :=
  ⟨fun _ _ _ h1 h2 => le_trans h1 h2⟩

/-- `aggregateByTimePeriod` from `analysis.ts`, parametric in the
period-start function `ps` standing for `getPeriodStart(·, period)` (the
source computes it through the host-local `Date` calendar).  The final
`result.sort((a, b) => a.timestamp - b.timestamp)` is a comparison sort by
timestamp, modelled by insertion sort. -/
def aggregateByTimePeriod (ps : Int → Int) (data : List DataPoint)
    (func : AggregationFunction) : List DataPoint :=
  if data.length = 0 then []
  else
    let groups := groupByPeriod ps data
    let result :=
      groups.map (fun g => DataPoint.mk g.1 (applyAggregationFunction g.2 func))
    List.insertionSort byTimestamp result

/-- `DateRange` from `DateRangeFilter.tsx`, with `Date`s as `getTime()`
milliseconds (`none` = `null`). -/
structure DateRange where
  startDate : Option Int
  endDate : Option Int
deriving DecidableEq, Repr

/-- `ValueRange` from `ValueRangeFilter.tsx` (`none` = `null`). -/
structure ValueRange where
  min : Option ℚ
  max : Option ℚ
  excludeOutliers : Bool
deriving DecidableEq, Repr

/-- The `type` discriminator of `MovingAverageSettings`. -/
inductive MovingAverageType where
  | none | sma | ema
deriving DecidableEq, Repr

/-- `MovingAverageSettings` from `MovingAverageControl.tsx` as used by
`AnalysisPanel.tsx`. -/
structure MovingAverageSettings where
  type : MovingAverageType
  windowSize : Int
  alpha : ℚ
  visible : Bool
deriving DecidableEq, Repr

/-- `TrendLineSettings` (the orchestrator reads only `enabled`). -/
structure TrendLineSettings where
  enabled : Bool
deriving DecidableEq, Repr

/-- `AggregationSettings`; the `period` field is carried separately as the
period-start function `ps`. -/
structure AggregationSettings where
  enabled : Bool
  func : AggregationFunction
deriving DecidableEq, Repr

/-- `AnomalySettings` from `AnomalyDetection.tsx`. -/
structure AnomalySettings where
  enabled : Bool
  threshold : ℚ
  excludeFromStats : Bool
deriving DecidableEq, Repr

/-- `Anomaly` from `AnomalyDetection.tsx`. -/
structure Anomaly where
  index : Nat
  timestamp : Int
  value : ℚ
  zScore : ℚ
deriving DecidableEq, Repr

/-- The analysis parameters of `AnalysisPanel.tsx` feeding `processedData`. -/
structure AnalysisState where
  dateRange : DateRange
  valueRange : ValueRange
  movingAverage : MovingAverageSettings
  trendLine : TrendLineSettings
  aggregation : AggregationSettings
  anomaly : AnomalySettings
deriving DecidableEq, Repr

/-- `ProcessedData` from `AnalysisPanel.tsx`. -/
structure ProcessedData where
  filteredData : List DataPoint
  movingAverageData : Option (List (Option ℚ))
  trendData : Option TrendResult
  aggregatedData : Option (List DataPoint)
  anomalies : List Anomaly
deriving DecidableEq, Repr

/-- Steps 1–2 of the `processedData` memo of `AnalysisPanel.tsx`: the date
filter runs when either date bound is set, then the value filter runs when
either value bound is set. -/
def filteredOf (st : AnalysisState) (rawData : List DataPoint) :
    List DataPoint :=
  let afterDate :=
    if st.dateRange.startDate.isSome || st.dateRange.endDate.isSome then
      filterByDateRange rawData st.dateRange.startDate st.dateRange.endDate
    else rawData
  if st.valueRange.min.isSome || st.valueRange.max.isSome then
    filterByValueRange afterDate st.valueRange.min st.valueRange.max
  else afterDate

/-- Step 3: the aggregation stage (`some` exactly when it ran). -/
def aggregatedOf (ps : Int → Int) (st : AnalysisState)
    (rawData : List DataPoint) : Option (List DataPoint) :=
  let filtered := filteredOf st rawData
  if st.aggregation.enabled && filtered.length > 0 then
    some (aggregateByTimePeriod ps filtered st.aggregation.func)
  else none

/-- The series the later stages run on: the aggregated series when the
aggregation stage ran, the filtered series otherwise. -/
def dataForAnalysisOf (ps : Int → Int) (st : AnalysisState)
    (rawData : List DataPoint) : List DataPoint :=
  match aggregatedOf ps st rawData with
  | some a => a
  | none => filteredOf st rawData

/-- Step 4 of the `processedData` memo: the moving-average stage
(`some` data exactly when it ran; an engine throw propagates). -/
def movingAverageOf (ps : Int → Int) (st : AnalysisState)
    (rawData : List DataPoint) : Except String (Option (List (Option ℚ))) :=
  let dataForAnalysis := dataForAnalysisOf ps st rawData
  if st.movingAverage.type ≠ MovingAverageType.none &&
      st.movingAverage.visible && dataForAnalysis.length > 0 then
    match st.movingAverage.type with
    | .sma => do
        let r ← calculateSimpleMovingAverage (dataForAnalysis.map (·.value))
            st.movingAverage.windowSize
        pure (some r)
    | .ema => do
        let r ← calculateExponentialMovingAverage (dataForAnalysis.map (·.value))
            st.movingAverage.alpha
        pure (some (r.map some))
    | .none => pure Option.none
  else pure Option.none

/-- Step 5 of the `processedData` memo: the trend stage. -/
def trendOf (ps : Int → Int) (st : AnalysisState) (rawData : List DataPoint) :
    Except String (Option TrendResult) :=
  let dataForAnalysis := dataForAnalysisOf ps st rawData
  if st.trendLine.enabled && dataForAnalysis.length ≥ 2 then do
    let t ← calculateLinearTrend
        (dataForAnalysis.map (fun d => (d.timestamp : ℚ)))
        (dataForAnalysis.map (·.value))
    pure (some t)
  else pure Option.none

/-- Step 6 of the `processedData` memo: the anomaly stage (a pure
computation; `detectAnomalies` cannot throw). -/
def anomaliesOf (ps : Int → Int) (sqrtFn : ℚ → ℚ) (st : AnalysisState)
    (rawData : List DataPoint) : List Anomaly :=
  let dataForAnalysis := dataForAnalysisOf ps st rawData
  if st.anomaly.enabled && dataForAnalysis.length > 0 then
    let values := dataForAnalysis.map (·.value)
    let indices := detectAnomalies sqrtFn values st.anomaly.threshold
    let mean := values.sum / (values.length : ℚ)
    let variance :=
      (values.map (fun v => (v - mean) ^ 2)).sum / (values.length : ℚ)
    let stdDev := sqrtFn variance
    indices.filterMap (fun index =>
      match dataForAnalysis.get? index with
      | some point =>
          some ⟨index, point.timestamp, point.value,
            (point.value - mean) / stdDev⟩
      | none => Option.none)
  else []

/-- The `processedData` memo of `AnalysisPanel.tsx` (steps 1–6), with an
engine exception propagating as `Except.error`.  Parametric in the
period-start function and the square root, as above. -/
def processedData (ps : Int → Int) (sqrtFn : ℚ → ℚ) (st : AnalysisState)
    (rawData : List DataPoint) : Except String ProcessedData :=
  if rawData.length = 0 then
    Except.ok ⟨[], Option.none, Option.none, Option.none, []⟩
  else do
    let movingAverageData ← movingAverageOf ps st rawData
    let trendData ← trendOf ps st rawData
    pure ⟨filteredOf st rawData, movingAverageData, trendData,
      aggregatedOf ps st rawData, anomaliesOf ps sqrtFn st rawData⟩

lemma emaFrom_length (alpha prev : ℚ) (l : List ℚ) :
    (emaFrom alpha prev l).length = l.length := by
  induction l generalizing prev with
  | nil => simp [emaFrom]
  | cons v rest ih => simp [emaFrom, ih]

lemma emaFrom_getD (alpha : ℚ) (l : List ℚ) :
    ∀ (prev : ℚ) (i : ℕ), i < l.length →
      (prev :: emaFrom alpha prev l).getD (i + 1) 0
        = alpha * l.getD i 0 + (1 - alpha) * (prev :: emaFrom alpha prev l).getD i 0 := by
  induction l with
  | nil => intro prev i hi; simp at hi
  | cons v rest ih =>
      intro prev i hi
      match i with
      | 0 => simp [emaFrom]
      | j + 1 =>
          have hj : j < rest.length := by simpa using hi
          have := ih (alpha * v + (1 - alpha) * prev) j hj
          simpa [emaFrom] using this

/--
C3: `calculateSimpleMovingAverage(values, window)` throws exactly when
`window ≤ 0` or `window > values.length`; otherwise it returns an array of
the input's length where each index `i < window − 1` holds the (non-null)
mean of `values[0..i]` and each `i ≥ window − 1` holds the mean of
`values[i−window+1..i]`; and `sma([1,2,3,4,5], 3) = [1, 1.5, 2, 3, 4]`.
-/
theorem sma_boundary_policy :
    (∀ (data : List ℚ) (w : Int),
      ((w ≤ 0 ∨ (data.length : Int) < w) →
        ∃ e, calculateSimpleMovingAverage data w = Except.error e)
      ∧ (0 < w → w ≤ (data.length : Int) →
          ∃ out, calculateSimpleMovingAverage data w = Except.ok out
            ∧ out.length = data.length
            ∧ (∀ i : ℕ, i < data.length →
                ((i : Int) < w - 1 →
                  out.getD i Option.none
                    = some ((data.take (i + 1)).sum / ((i : ℚ) + 1)))
                ∧ (w - 1 ≤ (i : Int) →
                  out.getD i Option.none
                    = some ((((data.take (i + 1)).drop (i + 1 - w.toNat)).sum)
                        / (w : ℚ))))))
    ∧ calculateSimpleMovingAverage [1, 2, 3, 4, 5] 3
        = Except.ok [some 1, some (3 / 2), some 2, some 3, some 4] := by
  constructor
  · intro data w
    constructor
    · intro h
      exact ⟨_, by rw [calculateSimpleMovingAverage, if_pos h]⟩
    · intro hw hle
      have hcond : ¬(w ≤ 0 ∨ (data.length : Int) < w) := by
        push_neg
        exact ⟨hw, hle⟩
      refine ⟨_, by rw [calculateSimpleMovingAverage, if_neg hcond], by simp, ?_⟩
      intro i hi
      have hget : ((List.range data.length).map (fun (i : ℕ) =>
          if (i : Int) < w - 1 then
            some ((data.take (i + 1)).sum / (((data.take (i + 1)).length : ℚ)))
          else
            some ((((data.take (i + 1)).drop (i + 1 - w.toNat)).sum)
              / (w : ℚ)))).getD i Option.none
          = if (i : Int) < w - 1 then
              some ((data.take (i + 1)).sum / (((data.take (i + 1)).length : ℚ)))
            else
              some ((((data.take (i + 1)).drop (i + 1 - w.toNat)).sum) / (w : ℚ)) := by
        rw [List.getD_eq_getElem?_getD, List.getElem?_map, List.getElem?_range hi]
        rfl
      have hlen : ((data.take (i + 1)).length : ℚ) = (i : ℚ) + 1 := by
        rw [List.length_take]
        have : min (i + 1) data.length = i + 1 := by omega
        rw [this]
        push_cast
        ring
      constructor
      · intro hilt
        rw [hget, if_pos hilt, hlen]
      · intro hige
        rw [hget, if_neg (by omega)]
  · simp [calculateSimpleMovingAverage, List.range_succ]
    norm_num

/--
C4: `calculateExponentialMovingAverage(values, alpha)` throws exactly when
`alpha ≤ 0` or `alpha > 1`; otherwise the output has the input's length,
its first entry is the first input value, each later entry satisfies
`EMA[t] = alpha·value[t] + (1−alpha)·EMA[t−1]`, the empty input yields the
empty output, and `ema([10,20,30], 0.5) = [10, 15, 22.5]`.
-/
theorem ema_seed_and_recurrence :
    (∀ (data : List ℚ) (alpha : ℚ),
      ((alpha ≤ 0 ∨ 1 < alpha) →
        ∃ e, calculateExponentialMovingAverage data alpha = Except.error e)
      ∧ (0 < alpha → alpha ≤ 1 →
          ∃ out, calculateExponentialMovingAverage data alpha = Except.ok out
            ∧ out.length = data.length
            ∧ out.head? = data.head?
            ∧ (∀ i : ℕ, i + 1 < data.length →
                out.getD (i + 1) 0
                  = alpha * data.getD (i + 1) 0 + (1 - alpha) * out.getD i 0)))
    ∧ calculateExponentialMovingAverage [10, 20, 30] (1 / 2)
        = Except.ok [10, 15, 45 / 2] := by
  constructor
  · intro data alpha
    constructor
    · intro h
      exact ⟨_, by rw [calculateExponentialMovingAverage.eq_def, if_pos h]⟩
    · intro h0 h1
      have hcond : ¬(alpha ≤ 0 ∨ 1 < alpha) := by
        push_neg
        exact ⟨h0, h1⟩
      match data with
      | [] =>
          refine ⟨[], ?_, by simp, by simp, by intro i hi; simp at hi⟩
          rw [calculateExponentialMovingAverage.eq_def, if_neg hcond]
      | v :: rest =>
          refine ⟨v :: emaFrom alpha v rest, ?_, ?_, by simp, ?_⟩
          · rw [calculateExponentialMovingAverage.eq_def, if_neg hcond]
          · simp [emaFrom_length]
          · intro i hi
            have hi' : i < rest.length := by simpa using hi
            have := emaFrom_getD alpha rest v i hi'
            simpa using this
  · simp [calculateExponentialMovingAverage, emaFrom]
    norm_num

theorem sma_boundary_policy_witness :
    (∃ e, calculateSimpleMovingAverage ([] : List ℚ) 2 = Except.error e)
    ∧ ∃ out, calculateSimpleMovingAverage [1, 2, 3] 2 = Except.ok out
        ∧ out.length = 3 := by
  refine ⟨(sma_boundary_policy.1 [] 2).1 (by norm_num), ?_⟩
  obtain ⟨out, hok, hlen, _⟩ :=
    (sma_boundary_policy.1 [1, 2, 3] 2).2 (by norm_num) (by norm_num)
  exact ⟨out, hok, by simpa using hlen⟩

theorem ema_seed_and_recurrence_witness :
    ∃ out, calculateExponentialMovingAverage [10, 20, 30] (1 / 2) = Except.ok out
      ∧ out.length = 3 ∧ out.head? = some 10 := by
  obtain ⟨out, hok, hlen, hhead, _⟩ :=
    (ema_seed_and_recurrence.1 [10, 20, 30] (1 / 2)).2 (by norm_num) (by norm_num)
  exact ⟨out, hok, by simpa using hlen, by simpa using hhead⟩

/--
C9: `filterByValueRange` and `filterByDateRange` each return the
order-preserving subsequence of the input consisting of exactly the points
inside the inclusive bounds (an absent bound imposes no constraint), with
each retained point unchanged; with both bounds present and crossed the
result is empty.
-/
theorem filters_are_inclusive_subsequences :
    ∀ (data : List DataPoint),
      (∀ vmin vmax,
        filterByValueRange data vmin vmax
          = data.filter (fun p =>
              vmin.all (fun m => m ≤ p.value) && vmax.all (fun M => p.value ≤ M))
        ∧ (filterByValueRange data vmin vmax).Sublist data
        ∧ (∀ p, p ∈ filterByValueRange data vmin vmax ↔
            p ∈ data ∧ (∀ m, vmin = some m → m ≤ p.value)
              ∧ (∀ M, vmax = some M → p.value ≤ M))
        ∧ (∀ m M, vmin = some m → vmax = some M → M < m →
            filterByValueRange data vmin vmax = []))
      ∧ (∀ startTime endTime,
        filterByDateRange data startTime endTime
          = data.filter (fun p =>
              startTime.all (fun s => s ≤ p.timestamp)
                && endTime.all (fun e => p.timestamp ≤ e))
        ∧ (filterByDateRange data startTime endTime).Sublist data
        ∧ (∀ p, p ∈ filterByDateRange data startTime endTime ↔
            p ∈ data ∧ (∀ s, startTime = some s → s ≤ p.timestamp)
              ∧ (∀ e, endTime = some e → p.timestamp ≤ e))
        ∧ (∀ s e, startTime = some s → endTime = some e → e < s →
            filterByDateRange data startTime endTime = [])) := by
  intro data
  constructor
  · intro vmin vmax
    have heq : filterByValueRange data vmin vmax
        = data.filter (fun p =>
            vmin.all (fun m => m ≤ p.value) && vmax.all (fun M => p.value ≤ M)) := by
      apply List.filter_congr
      intro p _
      rcases vmin with _ | m <;> rcases vmax with _ | M <;>
        simp [Option.any, Option.all, ← decide_not, not_lt]
    refine ⟨heq, List.filter_sublist data, ?_, ?_⟩
    · intro p
      rw [heq, List.mem_filter]
      rcases vmin with _ | m <;> rcases vmax with _ | M <;>
        simp [Option.all]
    · intro m M hm hM hcross
      rw [heq, hm, hM, List.eq_nil_iff_forall_not_mem]
      intro p hp
      rw [List.mem_filter] at hp
      obtain ⟨-, hpred⟩ := hp
      simp only [Option.all, Bool.and_eq_true, decide_eq_true_eq] at hpred
      exact absurd (hpred.1.trans hpred.2) (not_le.mpr hcross)
  · intro startTime endTime
    have heq : filterByDateRange data startTime endTime
        = data.filter (fun p =>
            startTime.all (fun s => s ≤ p.timestamp)
              && endTime.all (fun e => p.timestamp ≤ e)) := by
      apply List.filter_congr
      intro p _
      rcases startTime with _ | s <;> rcases endTime with _ | e <;>
        simp [Option.any, Option.all, ← decide_not, not_lt]
    refine ⟨heq, List.filter_sublist data, ?_, ?_⟩
    · intro p
      rw [heq, List.mem_filter]
      rcases startTime with _ | s <;> rcases endTime with _ | e <;>
        simp [Option.all]
    · intro s e hs he hcross
      rw [heq, hs, he, List.eq_nil_iff_forall_not_mem]
      intro p hp
      rw [List.mem_filter] at hp
      obtain ⟨-, hpred⟩ := hp
      simp only [Option.all, Bool.and_eq_true, decide_eq_true_eq] at hpred
      exact absurd (hpred.1.trans hpred.2) (not_le.mpr hcross)

theorem filters_are_inclusive_subsequences_witness :
    filterByValueRange [DataPoint.mk 0 5] (some 10) (some 1) = []
    ∧ filterByDateRange [DataPoint.mk 0 5] (some 7) (some 3) = [] := by
  refine ⟨?_, ?_⟩
  · exact ((filters_are_inclusive_subsequences [DataPoint.mk 0 5]).1
      (some 10) (some 1)).2.2.2 10 1 rfl rfl (by norm_num)
  · exact ((filters_are_inclusive_subsequences [DataPoint.mk 0 5]).2
      (some 7) (some 3)).2.2.2 7 3 rfl rfl (by norm_num)

/--
C2 counterexample: `calculateSimpleMovingAverage` on the zero-length series
throws even for the valid positive window 1 (any positive window exceeds
length 0), so not every engine accepts a zero-length series.
-/
theorem engines_on_empty_input_counterexample :
    calculateSimpleMovingAverage ([] : List ℚ) 1
      = Except.error "Window size must be positive and <= data length" := by
  rw [calculateSimpleMovingAverage, if_pos (by norm_num)]

/--
C2 amended: on a zero-length series with otherwise valid parameters, EMA,
aggregation, anomaly detection and IQR return their empty/default result
without throwing, but SMA throws for every window (any positive window
exceeds length 0) and linear trend throws (it rejects zero length).
-/
theorem engines_on_empty_input_amended :
    (∀ alpha : ℚ, 0 < alpha → alpha ≤ 1 →
      calculateExponentialMovingAverage [] alpha = Except.ok [])
    ∧ (∀ (ps : Int → Int) (func : AggregationFunction),
        aggregateByTimePeriod ps [] func = [])
    ∧ (∀ (sqrtFn : ℚ → ℚ) (t : ℚ), detectAnomalies sqrtFn [] t = [])
    ∧ calculateIQR [] = ⟨0, 0, 0, 0, 0, []⟩
    ∧ (∀ w : Int, ∃ e, calculateSimpleMovingAverage [] w = Except.error e)
    ∧ (∀ y : List ℚ, ∃ e, calculateLinearTrend [] y = Except.error e) := by
  refine ⟨?_, ?_, ?_, ?_, ?_, ?_⟩
  · intro alpha h0 h1
    rw [calculateExponentialMovingAverage.eq_def,
      if_neg (by push_neg; exact ⟨h0, h1⟩)]
  · intro ps func
    simp [aggregateByTimePeriod]
  · intro sqrtFn t
    simp [detectAnomalies]
  · simp [calculateIQR]
  · intro w
    exact ⟨_, by rw [calculateSimpleMovingAverage, if_pos (by simp; omega)]⟩
  · intro y
    exact ⟨_, by
      rw [calculateLinearTrend,
        if_pos (Or.inr rfl : ([] : List ℚ).length ≠ y.length ∨ ([] : List ℚ).length = 0)]⟩

theorem engines_on_empty_input_witness :
    calculateExponentialMovingAverage [] (1 / 2) = Except.ok []
    ∧ (∃ e, calculateSimpleMovingAverage [] 3 = Except.error e)
    ∧ (∃ e, calculateLinearTrend [] [] = Except.error e) := by
  exact ⟨engines_on_empty_input_amended.1 (1 / 2) (by norm_num) (by norm_num),
    engines_on_empty_input_amended.2.2.2.2.1 3,
    engines_on_empty_input_amended.2.2.2.2.2 []⟩

lemma list_sum_const (l : List ℚ) (c : ℚ) (h : ∀ v ∈ l, v = c) :
    l.sum = (l.length : ℚ) * c := by
  induction l with
  | nil => simp
  | cons v rest ih =>
      have hv : v = c := h v (by simp)
      have hrest : rest.sum = (rest.length : ℚ) * c :=
        ih (fun w hw => h w (by simp [hw]))
      simp [hv, hrest]
      ring

/--
C7: `detectAnomalies` flags no index when all values are equal (population
standard deviation zero) and the threshold is positive — points equal to
the mean are never flagged; every returned index is a valid position; and
empty input or a non-positive threshold yields the empty result.
-/
theorem detect_anomalies_degenerate :
    (∀ (sqrtFn : ℚ → ℚ) (data : List ℚ) (t : ℚ),
      sqrtFn 0 = 0 → 0 < t → (∀ v ∈ data, ∀ w ∈ data, v = w) →
      detectAnomalies sqrtFn data t = [])
    ∧ (∀ (sqrtFn : ℚ → ℚ) (data : List ℚ) (t : ℚ), data = [] ∨ t ≤ 0 →
        detectAnomalies sqrtFn data t = [])
    ∧ (∀ (sqrtFn : ℚ → ℚ) (data : List ℚ) (t : ℚ),
        ∀ i ∈ detectAnomalies sqrtFn data t, i < data.length) := by
  refine ⟨?_, ?_, ?_⟩
  · intro sqrtFn data t hs ht hall
    match data with
    | [] => simp [detectAnomalies]
    | c :: rest =>
        rw [detectAnomalies,
          if_neg (by push_neg; exact ⟨by simp, ht⟩)]
        have hmem : ∀ v ∈ c :: rest, v = c :=
          fun v hv => hall v hv c (by simp)
        have hn : ((c :: rest).length : ℚ) ≠ 0 := by
          simp
          positivity
        have hmean : (c :: rest).sum / ((c :: rest).length : ℚ) = c := by
          rw [list_sum_const (c :: rest) c hmem]
          field_simp
        have hvar : ((c :: rest).map
            (fun v => (v - (c :: rest).sum / ((c :: rest).length : ℚ)) ^ 2)).sum
              / ((c :: rest).length : ℚ) = 0 := by
          have hzero : ∀ u ∈ (c :: rest).map
              (fun v => (v - (c :: rest).sum / ((c :: rest).length : ℚ)) ^ 2),
              u = 0 := by
            intro u hu
            rw [List.mem_map] at hu
            obtain ⟨v, hv, rfl⟩ := hu
            rw [hmean, hmem v hv]
            ring
          rw [list_sum_const _ 0 hzero]
          simp
        have hfilter : ((c :: rest).enum.filter
            (fun p => zScoreExceeds ((c :: rest).sum / ((c :: rest).length : ℚ))
              0 t p.2)) = [] := by
          rw [List.filter_eq_nil_iff]
          intro p hp
          have hp2 : p.2 ∈ c :: rest := by
            rw [List.mem_enum_iff_getElem?] at hp
            exact List.getElem?_mem hp
          rw [zScoreExceeds, if_pos rfl, hmean, hmem p.2 hp2]
          simp
        simp only [hvar, hs, hfilter, List.map_nil]
  · intro sqrtFn data t h
    rcases h with h | h
    · simp [detectAnomalies, h]
    · rw [detectAnomalies, if_pos (Or.inr h)]
  · intro sqrtFn data t i hi
    rw [detectAnomalies] at hi
    by_cases hc : data.length = 0 ∨ t ≤ 0
    · rw [if_pos hc] at hi
      simp at hi
    · rw [if_neg hc] at hi
      simp only [List.mem_map] at hi
      obtain ⟨p, hp, rfl⟩ := hi
      have hp' := List.mem_of_mem_filter hp
      rw [List.mem_enum_iff_getElem?] at hp'
      exact (List.getElem?_eq_some.mp hp').1

theorem detect_anomalies_degenerate_witness :
    detectAnomalies (fun _ => 0) [5, 5, 5] 2 = []
    ∧ detectAnomalies (fun _ => 0) [1, 2, 3] 0 = [] := by
  refine ⟨detect_anomalies_degenerate.1 (fun _ => 0) [5, 5, 5] 2 rfl (by norm_num) ?_,
    detect_anomalies_degenerate.2.1 (fun _ => 0) [1, 2, 3] 0 (Or.inr le_rfl)⟩
  intro v hv w hw
  simp at hv hw
  rw [hv, hw]


lemma mem_outlier_map (data : List ℚ) (lb ub : ℚ) (i : ℕ) :
    i ∈ (data.enum.filter (fun p => p.2 < lb || ub < p.2)).map (·.1)
      ↔ ∃ h : i < data.length,
          (data.get ⟨i, h⟩ < lb ∨ ub < data.get ⟨i, h⟩) := by
  simp only [List.mem_map, List.mem_filter, List.mem_enum_iff_getElem?,
    Bool.or_eq_true, decide_eq_true_eq]
  constructor
  · rintro ⟨⟨j, v⟩, ⟨hget, hout⟩, rfl⟩
    have hj : j < data.length := (List.getElem?_eq_some.mp hget).1
    have hv : data.get ⟨j, hj⟩ = v := by
      rw [List.get_eq_getElem]
      have h2 := List.getElem?_eq_getElem hj
      rw [h2] at hget
      exact Option.some.inj hget
    exact ⟨hj, by rw [hv]; exact hout⟩
  · rintro ⟨h, hout⟩
    refine ⟨(i, data.get ⟨i, h⟩), ⟨?_, hout⟩, rfl⟩
    rw [List.getElem?_eq_getElem h, List.get_eq_getElem]

/--
C6: for every non-empty input, `calculateIQR` takes `q1` and `q3` at
positions `floor(n·0.25)` and `floor(n·0.75)` of the ascending-sorted copy,
sets `lowerBound = q1 − 1.5·iqr` and `upperBound = q3 + 1.5·iqr`, and its
`outlierIndices` are exactly the positions of the original unsorted input
whose value lies outside `[lowerBound, upperBound]`; for
`[1,…,9,100]` the only outlier index is 9, the index of 100.
-/
theorem iqr_floor_quartiles_and_outliers :
    (∀ (data s : List ℚ), data ≠ [] → s.Perm data → s.Sorted (· ≤ ·) →
      (calculateIQR data).q1 = s.getD (data.length / 4) 0
      ∧ (calculateIQR data).q3 = s.getD (3 * data.length / 4) 0
      ∧ (calculateIQR data).iqr = (calculateIQR data).q3 - (calculateIQR data).q1
      ∧ (calculateIQR data).lowerBound
          = (calculateIQR data).q1 - 3 / 2 * (calculateIQR data).iqr
      ∧ (calculateIQR data).upperBound
          = (calculateIQR data).q3 + 3 / 2 * (calculateIQR data).iqr
      ∧ (∀ i : ℕ, i ∈ (calculateIQR data).outlierIndices ↔
          ∃ h : i < data.length,
            (data.get ⟨i, h⟩ < (calculateIQR data).lowerBound
              ∨ (calculateIQR data).upperBound < data.get ⟨i, h⟩)))
    ∧ (calculateIQR [1, 2, 3, 4, 5, 6, 7, 8, 9, 100]).outlierIndices = [9] := by
  constructor
  · intro data s hne hperm hsorted
    have hlen0 : ¬ data.length = 0 := by
      simpa [List.length_eq_zero] using hne
    have hs : s = List.insertionSort (· ≤ ·) data := by
      refine List.eq_of_perm_of_sorted
        (hperm.trans (List.perm_insertionSort (· ≤ ·) data).symm) hsorted
        (List.sorted_insertionSort (· ≤ ·) data)
    refine ⟨?_, ?_, ?_, ?_, ?_, ?_⟩
    · simp [calculateIQR, hlen0, ← hs, hperm.length_eq]
    · simp [calculateIQR, hlen0, ← hs, hperm.length_eq]
    · simp [calculateIQR, hlen0]
    · simp [calculateIQR, hlen0]
    · simp [calculateIQR, hlen0]
    · intro i
      simp only [calculateIQR, hlen0, if_false]
      exact mem_outlier_map data _ _ i
  · norm_num [calculateIQR, List.insertionSort, List.orderedInsert, List.enum,
      List.enumFrom, List.filter]

theorem iqr_floor_quartiles_and_outliers_witness :
    (calculateIQR [3, 1, 2]).q1 = 1 ∧ (calculateIQR [3, 1, 2]).q3 = 3 := by
  obtain ⟨h1, h3, -⟩ := iqr_floor_quartiles_and_outliers.1 [3, 1, 2] [1, 2, 3]
    (by simp) (by decide) (by norm_num)
  refine ⟨by rw [h1]; rfl, by rw [h3]; rfl⟩

lemma list_sum_sq_eq_zero {l : List ℚ} {c : ℚ}
    (h : ∀ v ∈ l, v = c) : (l.map (fun v => (v - c) ^ 2)).sum = 0 := by
  have hz : ∀ u ∈ l.map (fun v => (v - c) ^ 2), u = 0 := by
    intro u hu
    rw [List.mem_map] at hu
    obtain ⟨v, hv, rfl⟩ := hu
    rw [h v hv]
    ring
  rw [list_sum_const _ 0 hz]
  simp

/--
C5: `calculateLinearTrend(x, y)` throws exactly when the arrays have
different lengths or length zero; otherwise it returns the centered
least-squares fit (`slope·Σ(x−x̄)² = Σ(x−x̄)(y−ȳ)` when the denominator is
non-zero, `intercept = ȳ − slope·x̄`), with the degenerate conventions:
all `x` identical ⇒ `slope = 0` and `intercept = ȳ`, all `y` identical
(`SS_total = 0`) ⇒ `r2 = 0`; and
`linearTrend([0,1,2,3],[0,2,4,6]) = (slope 2, intercept 0, r2 1)`.
-/
theorem linear_trend_centered_least_squares :
    (∀ x y : List ℚ,
      ((x.length ≠ y.length ∨ x.length = 0) →
        ∃ e, calculateLinearTrend x y = Except.error e)
      ∧ (x.length = y.length → x.length ≠ 0 →
          ∃ r, calculateLinearTrend x y = Except.ok r
            ∧ r.intercept
                = y.sum / (x.length : ℚ) - r.slope * (x.sum / (x.length : ℚ))
            ∧ ((x.map (fun v => (v - x.sum / (x.length : ℚ)) ^ 2)).sum ≠ 0 →
                r.slope = ((x.zip y).map
                    (fun p => (p.1 - x.sum / (x.length : ℚ))
                      * (p.2 - y.sum / (x.length : ℚ)))).sum
                  / (x.map (fun v => (v - x.sum / (x.length : ℚ)) ^ 2)).sum)
            ∧ ((∀ v ∈ x, ∀ w ∈ x, v = w) →
                r.slope = 0 ∧ r.intercept = y.sum / (x.length : ℚ))
            ∧ ((∀ v ∈ y, ∀ w ∈ y, v = w) → r.r2 = 0)))
    ∧ calculateLinearTrend [0, 1, 2, 3] [0, 2, 4, 6] = Except.ok ⟨2, 0, 1⟩ := by
  constructor
  · intro x y
    constructor
    · intro h
      exact ⟨_, by rw [calculateLinearTrend, if_pos h]⟩
    · intro hxy hx0
      have hcond : ¬(x.length ≠ y.length ∨ x.length = 0) := by
        push_neg
        exact ⟨hxy, hx0⟩
      refine ⟨_, by rw [calculateLinearTrend, if_neg hcond], ?_, ?_, ?_, ?_⟩
      · simp
      · intro hden
        simp only []
        rw [if_neg hden]
      · intro hallx
        obtain ⟨c, hc⟩ : ∃ c, ∀ v ∈ x, v = c := by
          match x, hx0 with
          | v :: rest, _ => exact ⟨v, fun w hw => hallx w hw v (by simp)⟩
        have hxm : x.sum / (x.length : ℚ) = c := by
          rw [list_sum_const x c hc]
          have : (x.length : ℚ) ≠ 0 := by
            exact_mod_cast hx0
          field_simp
        have hden : (x.map (fun v => (v - x.sum / (x.length : ℚ)) ^ 2)).sum = 0 := by
          rw [hxm]
          exact list_sum_sq_eq_zero hc
        constructor
        · simp only []
          rw [if_pos hden]
        · simp only []
          rw [if_pos hden]
          ring
      · intro hally
        have hy0 : y.length ≠ 0 := by omega
        obtain ⟨c, hc⟩ : ∃ c, ∀ v ∈ y, v = c := by
          match y, hy0 with
          | v :: rest, _ => exact ⟨v, fun w hw => hally w hw v (by simp)⟩
        have hym : y.sum / (x.length : ℚ) = c := by
          rw [list_sum_const y c hc, hxy]
          have : (y.length : ℚ) ≠ 0 := by
            exact_mod_cast hy0
          field_simp
        have hss : (y.map (fun v => (v - y.sum / (x.length : ℚ)) ^ 2)).sum = 0 := by
          rw [hym]
          exact list_sum_sq_eq_zero hc
        simp only []
        rw [if_pos hss]
  · simp [calculateLinearTrend]
    norm_num

theorem linear_trend_centered_least_squares_witness :
    (∃ e, calculateLinearTrend [1, 2] [1] = Except.error e)
    ∧ ∃ r, calculateLinearTrend [1, 1] [3, 7] = Except.ok r
        ∧ r.slope = 0 ∧ r.intercept = 5 := by
  refine ⟨(linear_trend_centered_least_squares.1 [1, 2] [1]).1 (by norm_num), ?_⟩
  obtain ⟨r, hok, -, -, hdeg, -⟩ :=
    (linear_trend_centered_least_squares.1 [1, 1] [3, 7]).2 (by norm_num) (by norm_num)
  obtain ⟨hs, hi⟩ := hdeg (by intro v hv w hw; simp at hv hw; rw [hv, hw])
  refine ⟨r, hok, hs, ?_⟩
  rw [hi]
  norm_num

/-- The key list of the grouping map, in insertion order. -/
def keysOf (gs : List (Int × List ℚ)) : List Int :=
  gs.map (·.1)

/-- Lookup in the grouping map (`[]` when the key is absent). -/
def lookupG : List (Int × List ℚ) → Int → List ℚ
  | [], _ => []
  | (k', vs) :: rest, k => if k' = k then vs else lookupG rest k

lemma keysOf_insertGroup (gs : List (Int × List ℚ)) (k : Int) (v : ℚ) :
    keysOf (insertGroup gs k v)
      = if k ∈ keysOf gs then keysOf gs else keysOf gs ++ [k] := by
  induction gs with
  | nil => simp [insertGroup, keysOf]
  | cons g rest ih =>
      obtain ⟨k', vs⟩ := g
      by_cases hk : k' = k
      · subst hk
        simp [insertGroup, keysOf]
      · simp only [insertGroup, if_neg hk, keysOf, List.map_cons] at ih ⊢
        rw [ih]
        by_cases hmem : k ∈ List.map (fun x => x.1) rest
        · rw [if_pos hmem, if_pos (by simp [hmem])]
        · rw [if_neg hmem, if_neg (by simp [hmem, Ne.symm hk])]
          simp

lemma mem_keysOf_insertGroup (gs : List (Int × List ℚ)) (k k' : Int) (v : ℚ) :
    k' ∈ keysOf (insertGroup gs k v) ↔ k' ∈ keysOf gs ∨ k' = k := by
  rw [keysOf_insertGroup]
  by_cases hmem : k ∈ keysOf gs
  · rw [if_pos hmem]
    constructor
    · exact Or.inl
    · rintro (h | rfl)
      · exact h
      · exact hmem
  · rw [if_neg hmem]
    simp

lemma nodup_keysOf_insertGroup {gs : List (Int × List ℚ)} (k : Int) (v : ℚ)
    (h : (keysOf gs).Nodup) : (keysOf (insertGroup gs k v)).Nodup := by
  rw [keysOf_insertGroup]
  by_cases hmem : k ∈ keysOf gs
  · rw [if_pos hmem]
    exact h
  · rw [if_neg hmem]
    simp [List.Nodup, List.pairwise_append]
    constructor
    · exact h
    · intro a ha hak
      exact hmem (hak ▸ ha)

lemma lookupG_insertGroup (gs : List (Int × List ℚ)) (k k' : Int) (v : ℚ) :
    lookupG (insertGroup gs k v) k'
      = if k' = k then lookupG gs k ++ [v] else lookupG gs k' := by
  induction gs with
  | nil =>
      by_cases h : k' = k
      · subst h
        simp [insertGroup, lookupG]
      · simp [insertGroup, lookupG, h, Ne.symm h]
  | cons g rest ih =>
      obtain ⟨k0, vs⟩ := g
      by_cases h0 : k0 = k
      · subst h0
        by_cases h' : k' = k0
        · subst h'
          simp [insertGroup, lookupG]
        · simp [insertGroup, lookupG, h', Ne.symm h']
      · by_cases h' : k0 = k'
        · subst h'
          simp [insertGroup, lookupG, h0, ih]
        · simp [insertGroup, lookupG, h0, h', ih]

lemma lookupG_groupByPeriod_aux (ps : Int → Int) (data : List DataPoint) :
    ∀ (gs : List (Int × List ℚ)) (k : Int),
      lookupG (data.foldl (fun gs p => insertGroup gs (ps p.timestamp) p.value) gs) k
        = lookupG gs k
          ++ (data.filter (fun p => ps p.timestamp == k)).map (·.value) := by
  induction data with
  | nil =>
      intro gs k
      simp
  | cons p rest ih =>
      intro gs k
      rw [List.foldl_cons, ih]
      by_cases hk : ps p.timestamp = k
      · rw [lookupG_insertGroup, if_pos hk.symm,
          List.filter_cons_of_pos (by simp [hk])]
        simp [hk]
      · rw [lookupG_insertGroup, if_neg (fun hh => hk hh.symm),
          List.filter_cons_of_neg (by simp [hk])]

lemma lookupG_groupByPeriod (ps : Int → Int) (data : List DataPoint) (k : Int) :
    lookupG (groupByPeriod ps data) k
      = (data.filter (fun p => ps p.timestamp == k)).map (·.value) := by
  have := lookupG_groupByPeriod_aux ps data [] k
  simpa [groupByPeriod, lookupG] using this

lemma mem_keysOf_groupByPeriod_aux (ps : Int → Int) (data : List DataPoint) :
    ∀ (gs : List (Int × List ℚ)) (k : Int),
      k ∈ keysOf (data.foldl (fun gs p => insertGroup gs (ps p.timestamp) p.value) gs)
        ↔ k ∈ keysOf gs ∨ ∃ p ∈ data, ps p.timestamp = k := by
  induction data with
  | nil =>
      intro gs k
      simp
  | cons p rest ih =>
      intro gs k
      rw [List.foldl_cons, ih, mem_keysOf_insertGroup]
      simp only [List.mem_cons]
      constructor
      · rintro ((h | rfl) | ⟨q, hq, hk⟩)
        · exact Or.inl h
        · exact Or.inr ⟨p, Or.inl rfl, rfl⟩
        · exact Or.inr ⟨q, Or.inr hq, hk⟩
      · rintro (h | ⟨q, (rfl | hq), hk⟩)
        · exact Or.inl (Or.inl h)
        · exact Or.inl (Or.inr hk.symm)
        · exact Or.inr ⟨q, hq, hk⟩

lemma mem_keysOf_groupByPeriod (ps : Int → Int) (data : List DataPoint) (k : Int) :
    k ∈ keysOf (groupByPeriod ps data) ↔ ∃ p ∈ data, ps p.timestamp = k := by
  have := mem_keysOf_groupByPeriod_aux ps data [] k
  simpa [groupByPeriod, keysOf] using this

lemma nodup_keysOf_groupByPeriod (ps : Int → Int) (data : List DataPoint) :
    (keysOf (groupByPeriod ps data)).Nodup := by
  have aux : ∀ (l : List DataPoint) (gs : List (Int × List ℚ)),
      (keysOf gs).Nodup →
      (keysOf (l.foldl (fun gs p => insertGroup gs (ps p.timestamp) p.value) gs)).Nodup := by
    intro l
    induction l with
    | nil => intro gs h; simpa using h
    | cons p rest ih =>
        intro gs h
        rw [List.foldl_cons]
        exact ih _ (nodup_keysOf_insertGroup _ _ h)
  exact aux data [] (by simp [keysOf])

lemma entry_eq_lookupG :
    ∀ {gs : List (Int × List ℚ)}, (keysOf gs).Nodup →
      ∀ {k : Int} {vs : List ℚ}, (k, vs) ∈ gs → vs = lookupG gs k := by
  intro gs
  induction gs with
  | nil =>
      intro _ k vs h
      simp at h
  | cons g rest ih =>
      obtain ⟨k0, vs0⟩ := g
      intro hnd k vs h
      have hnd' : (keysOf rest).Nodup ∧ k0 ∉ keysOf rest := by
        rw [keysOf, List.map_cons, List.nodup_cons] at hnd
        exact ⟨hnd.2, hnd.1⟩
      rcases List.mem_cons.mp h with heq | hmem
      · obtain ⟨rfl, rfl⟩ := Prod.mk.injEq .. ▸ heq
        simp [lookupG]
      · have hkmem : k ∈ keysOf rest :=
          List.mem_map.mpr ⟨(k, vs), hmem, rfl⟩
      -- k cannot be the head key, else the head key would recur in the tail
        have hne : ¬ k0 = k := fun hh => hnd'.2 (hh ▸ hkmem)
        rw [lookupG, if_neg hne]
        exact ih hnd'.1 hmem

lemma foldl_min_mem (l : List ℚ) : ∀ a : ℚ, l.foldl Min.min a ∈ a :: l := by
  induction l with
  | nil =>
      intro a
      simp
  | cons w rest ih =>
      intro a
      rw [List.foldl_cons]
      have h := ih (Min.min a w)
      rw [List.mem_cons] at h
      rcases h with h | h
      · rcases min_choice a w with hm | hm
        · rw [h, hm]
          exact List.mem_cons_self _ _
        · rw [h, hm]
          exact List.mem_cons_of_mem _ (List.mem_cons_self _ _)
      · exact List.mem_cons_of_mem _ (List.mem_cons_of_mem _ h)

lemma foldl_min_le (l : List ℚ) :
    ∀ (a x : ℚ), x ∈ a :: l → l.foldl Min.min a ≤ x := by
  induction l with
  | nil =>
      intro a x hx
      simp at hx
      simp [hx]
  | cons w rest ih =>
      intro a x hx
      rw [List.foldl_cons]
      rcases List.mem_cons.mp hx with hxa | hx'
      · rw [hxa]
        exact (ih (Min.min a w) _ (List.mem_cons_self _ _)).trans (min_le_left a w)
      · rcases List.mem_cons.mp hx' with hxw | hx''
        · rw [hxw]
          exact (ih (Min.min a w) _ (List.mem_cons_self _ _)).trans (min_le_right a w)
        · exact ih (Min.min a w) x (List.mem_cons_of_mem _ hx'')

lemma foldl_max_mem (l : List ℚ) : ∀ a : ℚ, l.foldl Max.max a ∈ a :: l := by
  induction l with
  | nil =>
      intro a
      simp
  | cons w rest ih =>
      intro a
      rw [List.foldl_cons]
      have h := ih (Max.max a w)
      rw [List.mem_cons] at h
      rcases h with h | h
      · rcases max_choice a w with hm | hm
        · rw [h, hm]
          exact List.mem_cons_self _ _
        · rw [h, hm]
          exact List.mem_cons_of_mem _ (List.mem_cons_self _ _)
      · exact List.mem_cons_of_mem _ (List.mem_cons_of_mem _ h)

lemma le_foldl_max (l : List ℚ) :
    ∀ (a x : ℚ), x ∈ a :: l → x ≤ l.foldl Max.max a := by
  induction l with
  | nil =>
      intro a x hx
      simp at hx
      simp [hx]
  | cons w rest ih =>
      intro a x hx
      rw [List.foldl_cons]
      rcases List.mem_cons.mp hx with hxa | hx'
      · rw [hxa]
        exact (le_max_left a w).trans (ih (Max.max a w) _ (List.mem_cons_self _ _))
      · rcases List.mem_cons.mp hx' with hxw | hx''
        · rw [hxw]
          exact (le_max_right a w).trans (ih (Max.max a w) _ (List.mem_cons_self _ _))
        · exact ih (Max.max a w) x (List.mem_cons_of_mem _ hx'')

lemma applyAggregationFunction_perm {vs vs' : List ℚ}
    (h : vs.Perm vs') (func : AggregationFunction) :
    applyAggregationFunction vs func = applyAggregationFunction vs' func := by
  have hlen : vs.length = vs'.length := h.length_eq
  rcases vs with _ | ⟨v, rest⟩
  · have hnil : vs' = [] := h.symm.eq_nil
    rw [hnil]
  · rcases vs' with _ | ⟨w, rest'⟩
    · simp at hlen
    · rw [applyAggregationFunction.eq_def, applyAggregationFunction.eq_def,
        if_neg (show ¬(v :: rest).length = 0 by simp),
        if_neg (show ¬(w :: rest').length = 0 by simp)]
      cases func with
      | mean =>
          show (v :: rest).sum / (((v :: rest).length : ℕ) : ℚ)
            = (w :: rest').sum / (((w :: rest').length : ℕ) : ℚ)
          rw [h.sum_eq, hlen]
      | sum =>
          show (v :: rest).sum = (w :: rest').sum
          exact h.sum_eq
      | min =>
          show rest.foldl Min.min v = rest'.foldl Min.min w
          have hmem1 : rest.foldl Min.min v ∈ w :: rest' :=
            h.mem_iff.mp (foldl_min_mem rest v)
          have hmem2 : rest'.foldl Min.min w ∈ v :: rest :=
            h.symm.mem_iff.mp (foldl_min_mem rest' w)
          exact le_antisymm (foldl_min_le rest v _ hmem2)
            (foldl_min_le rest' w _ hmem1)
      | max =>
          show rest.foldl Max.max v = rest'.foldl Max.max w
          have hmem1 : rest.foldl Max.max v ∈ w :: rest' :=
            h.mem_iff.mp (foldl_max_mem rest v)
          have hmem2 : rest'.foldl Max.max w ∈ v :: rest :=
            h.symm.mem_iff.mp (foldl_max_mem rest' w)
          exact le_antisymm (le_foldl_max rest' w _ hmem1)
            (le_foldl_max rest v _ hmem2)
      | count =>
          show (((v :: rest).length : ℕ) : ℚ) = (((w :: rest').length : ℕ) : ℚ)
          rw [hlen]
      | median =>
          have hsorted : List.insertionSort (· ≤ ·) (v :: rest)
              = List.insertionSort (· ≤ ·) (w :: rest') := by
            refine List.eq_of_perm_of_sorted
              (((List.perm_insertionSort (· ≤ ·) (v :: rest)).trans h).trans
                (List.perm_insertionSort (· ≤ ·) (w :: rest')).symm)
              (List.sorted_insertionSort (· ≤ ·) (v :: rest))
              (List.sorted_insertionSort (· ≤ ·) (w :: rest'))
          rw [hsorted]

/-- The pre-sort aggregated entry list (`result` before `sort`) of
`aggregateByTimePeriod`. -/
def entriesOf (ps : Int → Int) (data : List DataPoint)
    (func : AggregationFunction) : List DataPoint :=
  (groupByPeriod ps data).map
    (fun g => DataPoint.mk g.1 (applyAggregationFunction g.2 func))

lemma map_timestamp_entriesOf (ps : Int → Int) (data : List DataPoint)
    (func : AggregationFunction) :
    (entriesOf ps data func).map (·.timestamp) = keysOf (groupByPeriod ps data) := by
  simp [entriesOf, keysOf, List.map_map]

lemma nodup_entriesOf (ps : Int → Int) (data : List DataPoint)
    (func : AggregationFunction) : (entriesOf ps data func).Nodup := by
  apply List.Nodup.of_map (fun d : DataPoint => d.timestamp)
  rw [map_timestamp_entriesOf]
  exact nodup_keysOf_groupByPeriod ps data

lemma mem_entriesOf (ps : Int → Int) (data : List DataPoint)
    (func : AggregationFunction) (d : DataPoint) :
    d ∈ entriesOf ps data func
      ↔ d.timestamp ∈ keysOf (groupByPeriod ps data)
        ∧ d.value = applyAggregationFunction
            (lookupG (groupByPeriod ps data) d.timestamp) func := by
  constructor
  · intro h
    obtain ⟨g, hg, rfl⟩ := List.mem_map.mp h
    refine ⟨List.mem_map.mpr ⟨g, hg, rfl⟩, ?_⟩
    have hpair : (g.1, g.2) ∈ groupByPeriod ps data := by
      rw [Prod.mk.eta]
      exact hg
    have := entry_eq_lookupG (nodup_keysOf_groupByPeriod ps data) hpair
    exact congrArg (fun vs => applyAggregationFunction vs func) this
  · rintro ⟨hk, hv⟩
    obtain ⟨g, hg, hk1⟩ := List.mem_map.mp hk
    have hpair : (g.1, g.2) ∈ groupByPeriod ps data := by
      rw [Prod.mk.eta]
      exact hg
    have hvals : g.2 = lookupG (groupByPeriod ps data) g.1 :=
      entry_eq_lookupG (nodup_keysOf_groupByPeriod ps data) hpair
    refine List.mem_map.mpr ⟨g, hg, ?_⟩
    obtain ⟨dt, dv⟩ := d
    simp only at hk1 hv ⊢
    rw [hk1, hv, ← hk1, ← hvals]

lemma lookupG_perm (ps : Int → Int) {data data' : List DataPoint}
    (h : data.Perm data') (k : Int) :
    (lookupG (groupByPeriod ps data) k).Perm (lookupG (groupByPeriod ps data') k) := by
  rw [lookupG_groupByPeriod, lookupG_groupByPeriod]
  exact (h.filter _).map _

lemma entriesOf_perm (ps : Int → Int) {data data' : List DataPoint}
    (h : data.Perm data') (func : AggregationFunction) :
    (entriesOf ps data func).Perm (entriesOf ps data' func) := by
  refine List.perm_of_nodup_nodup_toFinset_eq (nodup_entriesOf ps data func)
    (nodup_entriesOf ps data' func) ?_
  ext d
  rw [List.mem_toFinset, List.mem_toFinset, mem_entriesOf, mem_entriesOf,
    mem_keysOf_groupByPeriod, mem_keysOf_groupByPeriod,
    applyAggregationFunction_perm (lookupG_perm ps h d.timestamp) func]
  constructor
  · rintro ⟨⟨p, hp, he⟩, hv⟩
    exact ⟨⟨p, h.mem_iff.mp hp, he⟩, hv⟩
  · rintro ⟨⟨p, hp, he⟩, hv⟩
    exact ⟨⟨p, h.mem_iff.mpr hp, he⟩, hv⟩

lemma aggregateByTimePeriod_eq_sort (ps : Int → Int) {data : List DataPoint}
    (hne : data ≠ []) (func : AggregationFunction) :
    aggregateByTimePeriod ps data func
      = List.insertionSort byTimestamp (entriesOf ps data func) := by
  rw [aggregateByTimePeriod,
    if_neg (by simpa [List.length_eq_zero] using hne)]
  rfl

lemma aggregate_perm_entriesOf (ps : Int → Int) {data : List DataPoint}
    (hne : data ≠ []) (func : AggregationFunction) :
    (aggregateByTimePeriod ps data func).Perm (entriesOf ps data func) := by
  rw [aggregateByTimePeriod_eq_sort ps hne func]
  exact List.perm_insertionSort byTimestamp _

lemma aggregate_sorted (ps : Int → Int) (data : List DataPoint)
    (func : AggregationFunction) :
    List.Sorted byTimestamp (aggregateByTimePeriod ps data func) := by
  by_cases hne : data = []
  · subst hne
    rw [aggregateByTimePeriod, if_pos (List.length_nil (α := DataPoint))]
    exact List.sorted_nil
  · rw [aggregateByTimePeriod_eq_sort ps hne func]
    exact List.sorted_insertionSort byTimestamp _

lemma aggregate_map_timestamp_nodup (ps : Int → Int) {data : List DataPoint}
    (hne : data ≠ []) (func : AggregationFunction) :
    ((aggregateByTimePeriod ps data func).map (·.timestamp)).Nodup := by
  have hperm := (aggregate_perm_entriesOf ps hne func).map
    (fun d : DataPoint => d.timestamp)
  rw [hperm.nodup_iff, map_timestamp_entriesOf]
  exact nodup_keysOf_groupByPeriod ps data

lemma aggregate_pairwise_lt (ps : Int → Int) {data : List DataPoint}
    (hne : data ≠ []) (func : AggregationFunction) :
    (aggregateByTimePeriod ps data func).Pairwise
      (fun a b => a.timestamp < b.timestamp) := by
  have hs : (aggregateByTimePeriod ps data func).Pairwise byTimestamp :=
    aggregate_sorted ps data func
  have hne' : (aggregateByTimePeriod ps data func).Pairwise
      (fun a b : DataPoint => a.timestamp ≠ b.timestamp) := by
    rw [← List.pairwise_map]
    exact (aggregate_map_timestamp_nodup ps hne func)
  exact (hs.and hne').imp (fun h => lt_of_le_of_ne h.1 h.2)

/-- Strict-timestamp-or-equal order on aggregated points; two sorted
permutations of each other under it are equal. -/
def tsLtOrEq (a b : DataPoint) : Prop :=
  a.timestamp < b.timestamp ∨ a = b

instance : IsAntisymm DataPoint tsLtOrEq :=
  ⟨fun a b h1 h2 => by
    rcases h1 with h1 | rfl
    · rcases h2 with h2 | h2
      · exact absurd h2 (lt_asymm h1)
      · exact h2.symm
    · rfl⟩

lemma aggregate_perm_invariant (ps : Int → Int) {data data' : List DataPoint}
    (h : data.Perm data') (func : AggregationFunction) :
    aggregateByTimePeriod ps data func = aggregateByTimePeriod ps data' func := by
  by_cases hne : data = []
  · subst hne
    rw [h.symm.eq_nil]
  · have hne' : data' ≠ [] := by
      intro hh
      exact hne (hh ▸ h).eq_nil
    have hperm : (aggregateByTimePeriod ps data func).Perm
        (aggregateByTimePeriod ps data' func) :=
      ((aggregate_perm_entriesOf ps hne func).trans
        (entriesOf_perm ps h func)).trans
        (aggregate_perm_entriesOf ps hne' func).symm
    refine List.eq_of_perm_of_sorted (r := tsLtOrEq) hperm ?_ ?_
    · exact (aggregate_pairwise_lt ps hne func).imp fun h => Or.inl h
    · exact (aggregate_pairwise_lt ps hne' func).imp fun h => Or.inl h

/--
C8: `aggregateByTimePeriod` is permutation-invariant and deterministic —
aggregating any permutation of the input with the same period-start
function and reducer (in particular the mean reducer) yields the identical
output — and the output is sorted ascending by bucket-start timestamp.
-/
theorem aggregation_deterministic_and_sorted :
    ∀ (ps : Int → Int) (func : AggregationFunction) (data data' : List DataPoint),
      data.Perm data' →
      aggregateByTimePeriod ps data func = aggregateByTimePeriod ps data' func
      ∧ List.Sorted byTimestamp (aggregateByTimePeriod ps data func) := by
  intro ps func data data' h
  exact ⟨aggregate_perm_invariant ps h func, aggregate_sorted ps data func⟩

theorem aggregation_deterministic_and_sorted_witness :
    aggregateByTimePeriod id [⟨1, 2⟩, ⟨0, 3⟩] AggregationFunction.mean
      = aggregateByTimePeriod id [⟨0, 3⟩, ⟨1, 2⟩] AggregationFunction.mean
    ∧ List.Sorted byTimestamp
        (aggregateByTimePeriod id [⟨1, 2⟩, ⟨0, 3⟩] AggregationFunction.mean) :=
  aggregation_deterministic_and_sorted id AggregationFunction.mean
    [⟨1, 2⟩, ⟨0, 3⟩] [⟨0, 3⟩, ⟨1, 2⟩] (by decide)

/--
C10: for every non-empty input, the output of `aggregateByTimePeriod` has
pairwise-distinct timestamps — it is strictly ascending, one point per
bucket — and every output timestamp is the period-aligned start of at
least one input point's timestamp.
-/
theorem aggregation_buckets_distinct_and_aligned :
    ∀ (ps : Int → Int) (func : AggregationFunction) (data : List DataPoint),
      data ≠ [] →
      ((aggregateByTimePeriod ps data func).map (·.timestamp)).Nodup
      ∧ (aggregateByTimePeriod ps data func).Pairwise
          (fun a b => a.timestamp < b.timestamp)
      ∧ ∀ q ∈ aggregateByTimePeriod ps data func,
          ∃ p ∈ data, q.timestamp = ps p.timestamp := by
  intro ps func data hne
  refine ⟨aggregate_map_timestamp_nodup ps hne func,
    aggregate_pairwise_lt ps hne func, ?_⟩
  intro q hq
  have hqe : q ∈ entriesOf ps data func :=
    (aggregate_perm_entriesOf ps hne func).mem_iff.mp hq
  have hmem := (mem_entriesOf ps data func q).mp hqe
  obtain ⟨p, hp, he⟩ :=
    (mem_keysOf_groupByPeriod ps data q.timestamp).mp hmem.1
  exact ⟨p, hp, he.symm⟩

theorem aggregation_buckets_distinct_and_aligned_witness :
    ((aggregateByTimePeriod id [⟨0, 1⟩, ⟨0, 3⟩] AggregationFunction.mean).map
        (·.timestamp)).Nodup
    ∧ ∀ q ∈ aggregateByTimePeriod id [⟨0, 1⟩, ⟨0, 3⟩] AggregationFunction.mean,
        ∃ p ∈ ([⟨0, 1⟩, ⟨0, 3⟩] : List DataPoint),
          q.timestamp = id p.timestamp := by
  obtain ⟨h1, h2, h3⟩ := aggregation_buckets_distinct_and_aligned id
    AggregationFunction.mean [⟨0, 1⟩, ⟨0, 3⟩] (by simp)
  exact ⟨h1, h3⟩

lemma aggregatedOf_eq_none (ps : Int → Int) (st : AnalysisState)
    (rawData : List DataPoint)
    (h : st.aggregation.enabled = false ∨ filteredOf st rawData = []) :
    aggregatedOf ps st rawData = Option.none := by
  rw [aggregatedOf]
  rcases h with h | h
  · rw [if_neg (by simp [h])]
  · rw [if_neg (by simp [h])]

lemma movingAverageOf_ok_of_valid (ps : Int → Int) (st : AnalysisState)
    (rawData : List DataPoint)
    (hsma : st.movingAverage.type = MovingAverageType.sma →
      st.movingAverage.visible = true →
      0 < (dataForAnalysisOf ps st rawData).length →
      0 < st.movingAverage.windowSize ∧
        st.movingAverage.windowSize ≤ ((dataForAnalysisOf ps st rawData).length : Int))
    (hema : st.movingAverage.type = MovingAverageType.ema →
      st.movingAverage.visible = true →
      0 < (dataForAnalysisOf ps st rawData).length →
      0 < st.movingAverage.alpha ∧ st.movingAverage.alpha ≤ 1) :
    ∃ mv, movingAverageOf ps st rawData = Except.ok mv
      ∧ ((st.movingAverage.type = MovingAverageType.none
          ∨ st.movingAverage.visible = false
          ∨ (dataForAnalysisOf ps st rawData).length = 0) → mv = Option.none) := by
  rw [movingAverageOf]
  by_cases hb : (st.movingAverage.type ≠ MovingAverageType.none &&
      st.movingAverage.visible &&
      (dataForAnalysisOf ps st rawData).length > 0) = true
  · have hb' : st.movingAverage.type ≠ MovingAverageType.none ∧
        st.movingAverage.visible = true ∧
        0 < (dataForAnalysisOf ps st rawData).length := by
      simpa [Bool.and_eq_true, and_assoc] using hb
    rw [if_pos hb]
    cases htype : st.movingAverage.type with
    | none => exact absurd htype hb'.1
    | sma =>
        obtain ⟨hw0, hwle⟩ := hsma htype hb'.2.1 hb'.2.2
        have hcond : ¬(st.movingAverage.windowSize ≤ 0 ∨
            (((dataForAnalysisOf ps st rawData).map (·.value)).length : Int)
              < st.movingAverage.windowSize) := by
          push_neg
          refine ⟨hw0, ?_⟩
          rw [List.length_map]
          exact hwle
        obtain ⟨r, hr⟩ : ∃ r, calculateSimpleMovingAverage
            ((dataForAnalysisOf ps st rawData).map (·.value))
            st.movingAverage.windowSize = Except.ok r := by
          rw [calculateSimpleMovingAverage, if_neg hcond]
          exact ⟨_, rfl⟩
        refine ⟨some r, ?_, ?_⟩
        · rw [hr]
          rfl
        · intro hdisj
          exfalso
          rcases hdisj with h | h | h
          · cases h
          · rw [hb'.2.1] at h
            cases h
          · omega
    | ema =>
        obtain ⟨ha0, hale⟩ := hema htype hb'.2.1 hb'.2.2
        have hcond : ¬(st.movingAverage.alpha ≤ 0 ∨ 1 < st.movingAverage.alpha) := by
          push_neg
          exact ⟨ha0, hale⟩
        obtain ⟨r, hr⟩ : ∃ r, calculateExponentialMovingAverage
            ((dataForAnalysisOf ps st rawData).map (·.value))
            st.movingAverage.alpha = Except.ok r := by
          rw [calculateExponentialMovingAverage.eq_def, if_neg hcond]
          cases hv : (dataForAnalysisOf ps st rawData).map (·.value) with
          | nil => exact ⟨[], rfl⟩
          | cons v rest => exact ⟨_, rfl⟩
        refine ⟨some (r.map some), ?_, ?_⟩
        · rw [hr]
          rfl
        · intro hdisj
          exfalso
          rcases hdisj with h | h | h
          · cases h
          · rw [hb'.2.1] at h
            cases h
          · omega
  · rw [if_neg hb]
    exact ⟨Option.none, rfl, fun _ => rfl⟩

lemma trendOf_ok (ps : Int → Int) (st : AnalysisState)
    (rawData : List DataPoint) :
    ∃ t, trendOf ps st rawData = Except.ok t
      ∧ (¬(st.trendLine.enabled = true
          ∧ 2 ≤ (dataForAnalysisOf ps st rawData).length) → t = Option.none) := by
  rw [trendOf]
  by_cases hb : (st.trendLine.enabled &&
      (dataForAnalysisOf ps st rawData).length ≥ 2) = true
  · have hb' : st.trendLine.enabled = true ∧
        2 ≤ (dataForAnalysisOf ps st rawData).length := by
      simpa [Bool.and_eq_true] using hb
    rw [if_pos hb]
    have hcond : ¬(((dataForAnalysisOf ps st rawData).map
          (fun d => (d.timestamp : ℚ))).length
        ≠ ((dataForAnalysisOf ps st rawData).map (·.value)).length ∨
        ((dataForAnalysisOf ps st rawData).map
          (fun d => (d.timestamp : ℚ))).length = 0) := by
      push_neg
      refine ⟨by rw [List.length_map, List.length_map], ?_⟩
      rw [List.length_map]
      omega
    obtain ⟨t0, ht0⟩ : ∃ t0, calculateLinearTrend
        ((dataForAnalysisOf ps st rawData).map (fun d => (d.timestamp : ℚ)))
        ((dataForAnalysisOf ps st rawData).map (·.value)) = Except.ok t0 := by
      rw [calculateLinearTrend, if_neg hcond]
      exact ⟨_, rfl⟩
    refine ⟨some t0, ?_, fun hcontra => absurd hb' hcontra⟩
    rw [ht0]
    rfl
  · rw [if_neg hb]
    exact ⟨Option.none, rfl, fun _ => rfl⟩

/--
C1 counterexample: the orchestrator throws.  With the default window 7, a
one-point series, smoothing type `sma` and every other stage disabled, the
`processedData` recomputation propagates the smoothing engine's exception
instead of substituting an absent field.
-/
theorem orchestrator_never_throws_counterexample :
    processedData id (fun _ => 0)
      ⟨⟨Option.none, Option.none⟩, ⟨Option.none, Option.none, false⟩,
        ⟨MovingAverageType.sma, 7, 3 / 10, true⟩, ⟨false⟩,
        ⟨false, AggregationFunction.mean⟩, ⟨false, 2, false⟩⟩
      [⟨0, 1⟩]
      = Except.error "Window size must be positive and <= data length" := by
  rfl

/--
C1 amended: the orchestrator never throws provided the smoothing
parameters are valid for the series the smoothing engine is run on
(`sma`: `0 < windowSize ≤ length`; `ema`: `0 < alpha ≤ 1`) — otherwise the
engine's exception propagates, as the counterexample shows.  Under that
proviso it returns a result in which the trend field is absent when the
trend stage's precondition (≥ 2 points) is not met, the moving-average
field is absent when the smoothing stage did not run, and the aggregation
field is absent when the aggregation stage did not run.
-/
theorem orchestrator_never_throws_amended :
    ∀ (ps : Int → Int) (sqrtFn : ℚ → ℚ) (st : AnalysisState)
      (rawData : List DataPoint),
      (st.movingAverage.type = MovingAverageType.sma →
        st.movingAverage.visible = true →
        0 < (dataForAnalysisOf ps st rawData).length →
        0 < st.movingAverage.windowSize ∧
          st.movingAverage.windowSize
            ≤ ((dataForAnalysisOf ps st rawData).length : Int)) →
      (st.movingAverage.type = MovingAverageType.ema →
        st.movingAverage.visible = true →
        0 < (dataForAnalysisOf ps st rawData).length →
        0 < st.movingAverage.alpha ∧ st.movingAverage.alpha ≤ 1) →
      ∃ pd, processedData ps sqrtFn st rawData = Except.ok pd
        ∧ (¬(st.trendLine.enabled = true
            ∧ 2 ≤ (dataForAnalysisOf ps st rawData).length) →
            pd.trendData = Option.none)
        ∧ ((st.movingAverage.type = MovingAverageType.none
            ∨ st.movingAverage.visible = false
            ∨ (dataForAnalysisOf ps st rawData).length = 0) →
            pd.movingAverageData = Option.none)
        ∧ ((st.aggregation.enabled = false ∨ filteredOf st rawData = []) →
            pd.aggregatedData = Option.none) := by
  intro ps sqrtFn st rawData hsma hema
  obtain ⟨mv, hmv, hmvnone⟩ := movingAverageOf_ok_of_valid ps st rawData hsma hema
  obtain ⟨t, ht, htnone⟩ := trendOf_ok ps st rawData
  by_cases hraw : rawData.length = 0
  · rw [processedData, if_pos hraw]
    exact ⟨_, rfl, fun _ => rfl, fun _ => rfl, fun _ => rfl⟩
  · rw [processedData, if_neg hraw, hmv, ht]
    refine ⟨_, rfl, ?_, ?_, ?_⟩
    · intro h
      exact htnone h
    · intro h
      exact hmvnone h
    · intro h
      exact aggregatedOf_eq_none ps st rawData h

theorem orchestrator_never_throws_witness :
    ∃ pd, processedData id (fun _ => 0)
        ⟨⟨Option.none, Option.none⟩, ⟨Option.none, Option.none, false⟩,
          ⟨MovingAverageType.none, 7, 3 / 10, true⟩, ⟨false⟩,
          ⟨false, AggregationFunction.mean⟩, ⟨false, 2, false⟩⟩
        [⟨0, 1⟩] = Except.ok pd
      ∧ pd.trendData = Option.none ∧ pd.movingAverageData = Option.none
      ∧ pd.aggregatedData = Option.none := by
  obtain ⟨pd, hok, ht, hmv, hagg⟩ := orchestrator_never_throws_amended id
    (fun _ => 0)
    ⟨⟨Option.none, Option.none⟩, ⟨Option.none, Option.none, false⟩,
      ⟨MovingAverageType.none, 7, 3 / 10, true⟩, ⟨false⟩,
      ⟨false, AggregationFunction.mean⟩, ⟨false, 2, false⟩⟩
    [⟨0, 1⟩]
    (by intro h; exact absurd h (by decide))
    (by intro h; exact absurd h (by decide))
  exact ⟨pd, hok, ht (by simp), hmv (Or.inl rfl), hagg (Or.inl rfl)⟩
